import Mathlib

/-!
Verification of the balance aggregation engine of `ledger-obsidian-traveller`
(`src/balance-utils.ts`).  The engine is embedded shallowly: JavaScript `Map`s
(which iterate in insertion order) become insertion-ordered association lists,
Traveller 2e calendar dates (years of 365 numbered days) become absolute day
counts, and signed decimal amounts are modelled as integers.
-/

namespace Ledger

/-- `moment.year()` for the Traveller 2e calendar: dates are modelled as
absolute day counts (365 numbered days per year); the date library is external
to the engine, which only needs `year`, `dayOfYear`, add-one-day (`+ 1`) and
comparison (`≤`). -/
def TDate.year (d : Nat) : Nat := d / 365

/-- `moment.dayOfYear()` for the Traveller calendar: days are numbered 1–365. -/
def TDate.dayOfYear (d : Nat) : Nat := d % 365 + 1

/-- JavaScript `String.prototype.padStart(3, '0')`. -/
def padStart3 (s : String) : String :=
  if 3 ≤ s.length then s else String.mk (List.replicate (3 - s.length) '0') ++ s

/-- The bucket key `` `${year}.${dayOfYear.toString().padStart(3, '0')}` ``
computed for a date throughout `balance-utils.ts`. -/
def dateKey (d : Nat) : String :=
  toString (TDate.year d) ++ "." ++ padStart3 (toString (TDate.dayOfYear d))

/-- Models JavaScript `String.prototype.startsWith`: a character-sequence
prefix test. -/
def jsStartsWith (s p : String) : Bool := p.data.isPrefixOf s.data

/-- Lexicographic strict order on character sequences, as JavaScript `<`
compares strings code unit by code unit. -/
def lexLt : List Char → List Char → Bool
  | [], [] => false
  | [], _ :: _ => true
  | _ :: _, [] => false
  | c :: cs, d :: ds => if c < d then true else if d < c then false else lexLt cs ds

/-- JavaScript `a < b` on strings. -/
def jsLt (a b : String) : Bool := lexLt a.data b.data

/-- JavaScript `a > b` on strings. -/
def jsGt (a b : String) : Bool := jsLt b a

/-- JavaScript `a <= b` on strings (lexicographic, the negation of `b < a`). -/
def jsLe (a b : String) : Bool := !jsLt b a

/-- Modelled from the spec: a transaction line (`parser.ts` is not under
`src/`) is either a comment line (no `account` field, skipped) or an account
line carrying a de-aliased hierarchical account path and a signed amount. -/
inductive Line where
  | comment
  | accountLine (dealiasedAccount : String) (amount : Int)
deriving DecidableEq, Repr

/-- Modelled from the spec: an `EnhancedTransaction` exposes a date
(`tx.value.date`) and an ordered list of lines (`tx.value.expenselines`). -/
structure Tx where
  date : Nat
  expenselines : List Line
deriving DecidableEq, Repr

/-- Modelled from the spec: the two string prefixes from `ISettings`
(`settings.ts` is not under `src/`) identifying asset and liability account
trees for net-worth computation. -/
structure ISettings where
  assetAccountsPrefix : String
  liabilityAccountsPrefix : String
deriving DecidableEq, Repr

/-- First-match lookup in an insertion-ordered association list
(JavaScript `Map.get`). -/
def alookup {α β : Type} [DecidableEq α] : List (α × β) → α → Option β
  | [], _ => none
  | (k, v) :: rest, key => if k = key then some v else alookup rest key

/-- JavaScript `Map.set`: overwrite the value at an existing key in place,
or append a new entry at the end (insertion order). -/
def setEntry {α β : Type} [DecidableEq α] : List (α × β) → α → β → List (α × β)
  | [], key, value => [(key, value)]
  | (k, v) :: rest, key, value =>
    if k = key then (k, value) :: rest else (k, v) :: setEntry rest key value

/-- Modelled from the spec: the `getWithDefault` helper (`generic-utils.ts` is
not under `src/`) is a mutating lookup that inserts a default value when the
key is absent.  `pushEntry m key x` is `getWithDefault(m, key, []).push(x)`:
append `x` to the list stored at `key`, inserting an empty list first when
`key` is absent. -/
def pushEntry {α β : Type} [DecidableEq α] : List (α × List β) → α → β → List (α × List β)
  | [], key, x => [(key, [x])]
  | (k, v) :: rest, key, x =>
    if k = key then (k, v ++ [x]) :: rest else (k, v) :: pushEntry rest key x

/-- Only a daily interval is supported by the Traveller 2e calendar. -/
inductive Interval where
  | day
deriving DecidableEq, Repr

/-- A chart data point `{x, y}` (the engine only produces string `x` labels). -/
structure ChartPoint where
  x : String
  y : Int
deriving DecidableEq, Repr

/-- `calcNetWorth` from `balance-utils.ts`: reduce over the per-account balance
entries, adding those whose account starts with the asset or liability
prefix. -/
def calcNetWorth (balanceData : List (String × Int)) (settings : ISettings) : Int :=
  balanceData.foldl
    (fun accum curr =>
      if jsStartsWith curr.1 settings.assetAccountsPrefix
          || jsStartsWith curr.1 settings.liabilityAccountsPrefix
      then accum + curr.2
      else accum)
    0

/-- `makeBucketNames` from `balance-utils.ts`: starting from a clone of
`startDate`, emit the date key and add one interval unit (one day) while the
current date is same-or-before `endDate`. -/
def makeBucketNames (interval : Interval) (startDate endDate : Nat) : List String :=
  if h : startDate ≤ endDate then
    dateKey startDate :: makeBucketNames interval (startDate + 1) endDate
  else
    []
termination_by endDate + 1 - startDate
decreasing_by simp_wf; omega

/-- The transaction's own Traveller date key
(`` `${txDate.year()}.${txDate.dayOfYear()...}` `` in `bucketTransactions`). -/
def txKey (tx : Tx) : String := dateKey tx.date

/-- The scan loop of `bucketTransactions`: walk the bucket names, keeping the
last one not lexicographically greater than the transaction key, breaking at
the first bucket name greater than it. -/
def chooseBucketGo (txTravellerDate : String) (targetBucket : String) :
    List String → String
  | [] => targetBucket
  | bucketName :: rest =>
    if jsGt bucketName txTravellerDate then targetBucket
    else chooseBucketGo txTravellerDate bucketName rest

/-- The bucket selected for a transaction key by `bucketTransactions`:
`bucketNames[0]` as the default (JavaScript `undefined`, modelled as `none`,
when the list is empty), updated by the scan loop. -/
def chooseBucket (bucketNames : List String) (txTravellerDate : String) :
    Option String :=
  match bucketNames with
  | [] => none
  | targetBucket :: _ =>
    some (chooseBucketGo txTravellerDate targetBucket bucketNames)

/-- `bucketTransactions` from `balance-utils.ts`: initialize every bucket name
to an empty list, then push each transaction onto the bucket chosen for its
date key (via `getWithDefault`, so an undefined bucket key is inserted when
the bucket list is empty). -/
def bucketTransactions (bucketNames : List String) (txs : List Tx) :
    List (Option String × List Tx) :=
  txs.foldl
    (fun buckets tx => pushEntry buckets (chooseBucket bucketNames (txKey tx)) tx)
    (bucketNames.map fun name => (some name, []))

/-- `makeNetWorthData` from `balance-utils.ts`. -/
def makeNetWorthData (dailyAccountBalanceMap : List (String × List (String × Int)))
    (bucketNames : List String) (settings : ISettings) : List ChartPoint :=
  bucketNames.map fun bucket =>
    match alookup dailyAccountBalanceMap bucket with
    | some balanceData => { x := bucket, y := calcNetWorth balanceData settings }
    | none => { x := bucket, y := 0 }

/-- `findChildAccounts` from `balance-utils.ts`: candidates starting with
`account + ':'`. -/
def findChildAccounts (account : String) (accounts : List String) : List String :=
  accounts.filter fun candidate => jsStartsWith candidate (account ++ ":")

/-- `makeDeltaData` from `balance-utils.ts`: for each bucket (with its index),
sum over the target account and its children the difference between this
bucket's balance and the previous bucket's balance (`bucketBefore` for index
0), with missing entries read as 0. -/
def makeDeltaData (dailyAccountBalanceMap : List (String × List (String × Int)))
    (bucketBefore : String) (bucketNames : List String) (account : String)
    (allAccounts : List String) : List ChartPoint :=
  let accounts := findChildAccounts account allAccounts ++ [account]
  bucketNames.mapIdx fun i bucket =>
    let prevBucket := if i = 0 then bucketBefore else bucketNames.getD (i - 1) ""
    let accountBalances := alookup dailyAccountBalanceMap bucket
    let prevAccountBalances := alookup dailyAccountBalanceMap prevBucket
    let balance := accounts.foldl
      (fun prev currentAccount =>
        let b1 := ((prevAccountBalances.bind fun m => alookup m currentAccount).getD 0)
        let b2 := ((accountBalances.bind fun m => alookup m currentAccount).getD 0)
        b2 - b1 + prev)
      0
    { x := bucket, y := balance }

/-- One line of the first pass of `makeDailyAccountBalanceChangeMap`: comment
lines (no `account` field) are skipped, account lines push their amount onto
the balance list of their de-aliased account. -/
def addLine (accounts : List (String × List Int)) : Line → List (String × List Int)
  | .comment => accounts
  | .accountLine dealiasedAccount amount => pushEntry accounts dealiasedAccount amount

/-- One transaction of the first pass of `makeDailyAccountBalanceChangeMap`:
fetch (inserting an empty inner map if absent) the inner map for the
transaction's normalized date, then fold the expense lines into it. -/
def addTx (txDateAccountMap : List (String × List (String × List Int))) (tx : Tx) :
    List (String × List (String × List Int)) :=
  let normalizedDate := dateKey tx.date
  let accounts := (alookup txDateAccountMap normalizedDate).getD []
  setEntry txDateAccountMap normalizedDate (tx.expenselines.foldl addLine accounts)

/-- `makeDailyAccountBalanceChangeMap` from `balance-utils.ts`: first collect,
per date and account, the list of all balance changes; then roll each list up
into a single sum per (date, account) entry. -/
def makeDailyAccountBalanceChangeMap (transactions : List Tx) :
    List (String × List (String × Int)) :=
  let txDateAccountMap := transactions.foldl addTx []
  txDateAccountMap.map fun p => (p.1, p.2.map fun q => (q.1, q.2.foldl (· + ·) 0))

/-- The day loop of `makeDailyBalanceMap`: while the current date is
same-or-before `lastDate`, record (sharing the previous day's map when the
sparse input has no entry for the day, otherwise building a fresh map adding
the day's deltas) and step one day. -/
def rollDays (accounts : List String) (input : List (String × List (String × Int)))
    (previousData : List (String × Int)) (currentDate lastDate : Nat) :
    List (String × List (String × Int)) :=
  if h : currentDate ≤ lastDate then
    let currentDateStr := dateKey currentDate
    match alookup input currentDateStr with
    | some innerInputMap =>
      let innerResultMap := accounts.map fun accountName =>
        (accountName,
          (alookup previousData accountName).getD 0
            + (alookup innerInputMap accountName).getD 0)
      (currentDateStr, innerResultMap)
        :: rollDays accounts input innerResultMap (currentDate + 1) lastDate
    | none =>
      (currentDateStr, previousData)
        :: rollDays accounts input previousData (currentDate + 1) lastDate
  else
    []
termination_by lastDate + 1 - currentDate
decreasing_by all_goals (simp_wf; omega)

/-- The seed of `makeDailyBalanceMap`: every account starts with 0 balance. -/
def seedMap (accounts : List String) : List (String × Int) :=
  accounts.map fun accountName => (accountName, 0)

/-- `makeDailyBalanceMap` from `balance-utils.ts`. -/
def makeDailyBalanceMap (accounts : List String)
    (input : List (String × List (String × Int))) (firstDate lastDate : Nat) :
    List (String × List (String × Int)) :=
  rollDays accounts input (seedMap accounts) firstDate lastDate

/-- The account trie node of `balance-utils.ts` (`TreeNode`): an `exists` flag
(written `existsB`), a label (one path segment), and insertion-ordered
children.  The root (`RootNode`) is modelled as a bare child list. -/
inductive TreeNode where
  | mk (existsB : Bool) (label : String) (children : List TreeNode)

/-- The insertion loop of `removeDuplicateAccounts`: descend the trie along
the path's segments, finding the child with a matching label (marking it as
existing when at the last segment) or appending a fresh node at the end of the
children (marked as existing exactly when at the last segment). -/
def insertPath : List String → List TreeNode → List TreeNode
  | [], children => children
  | seg :: rest, [] => [.mk rest.isEmpty seg (insertPath rest [])]
  | seg :: rest, .mk e l ch :: others =>
    if l = seg then .mk (e || rest.isEmpty) l (insertPath rest ch) :: others
    else .mk e l ch :: insertPath (seg :: rest) others

/-- `newPath` in `renderTree`: `path ? [path, node.label].join(':') :
node.label`, where the root passes `undefined` (`none`) and the empty string
is falsy in JavaScript. -/
def joinPath (path : Option String) (label : String) : String :=
  match path with
  | some p => if p = "" then label else p ++ ":" ++ label
  | none => label

/-- `renderTree` from `balance-utils.ts`, flattened over a child list: emit a
node's colon-joined path when its child count differs from 1 and it exists,
then recurse into its children with the extended path, in order. -/
def renderList : Option String → List TreeNode → List String
  | _, [] => []
  | path, .mk e label children :: rest =>
    (if children.length != 1 && e then [joinPath path label] else [])
      ++ renderList (some (joinPath path label)) children
      ++ renderList path rest
termination_by _ l => sizeOf l
decreasing_by all_goals (simp_wf; try omega)

/-- JavaScript `String.prototype.split(':')` on the character sequence: the
(possibly empty) chunks between colons, `[[]]` for the empty sequence. -/
def splitColon : List Char → List (List Char)
  | [] => [[]]
  | c :: rest =>
    if c = ':' then [] :: splitColon rest
    else
      match splitColon rest with
      | [] => [[c]]
      | seg :: segs => (c :: seg) :: segs

/-- JavaScript `path.split(':')`. -/
def jsSplitColon (s : String) : List String := (splitColon s.data).map String.mk

/-- `removeDuplicateAccounts` from `balance-utils.ts`: build the trie from the
colon-split paths, then render it from the root (path `undefined`). -/
def removeDuplicateAccounts (input : List String) : List String :=
  let tree := input.foldl (fun t path => insertPath (jsSplitColon path) t) []
  renderList none tree

/-! ### Specification-side definitions

The following definitions restate, in the spec's words, the values the claims
say the engine computes; the theorems below connect them to the embedded
source functions. -/

/-- The spec's bucket assignment rule: the last bucket key lexicographically
`≤` the transaction key, defaulting to the first bucket key when no bucket key
qualifies (and to no bucket at all when the bucket list is empty). -/
def assignedBucketSpec (bucketNames : List String) (txTravellerDate : String) :
    Option String :=
  match bucketNames with
  | [] => none
  | first :: _ =>
    some ((bucketNames.filter fun b => jsLe b txTravellerDate).getLastD first)

/-- The amounts of the account lines of a line list that touch `account`,
in order; comment lines contribute nothing. -/
def lineAmounts (lines : List Line) (account : String) : List Int :=
  lines.filterMap fun l =>
    match l with
    | .comment => none
    | .accountLine a amt => if a = account then some amt else none

/-- All amounts, across transactions and lines in order, of account lines for
`account` in transactions whose date key is `k`. -/
def amountsAt (transactions : List Tx) (k account : String) : List Int :=
  (transactions.map fun tx =>
    if dateKey tx.date = k then lineAmounts tx.expenselines account else []).flatten

/-- The balance-change list recorded for day `k` and `account` in a first-pass
map (empty when either key is absent). -/
def changesFor (m : List (String × List (String × List Int))) (k account : String) :
    List Int :=
  (alookup ((alookup m k).getD []) account).getD []

/-- One day of the forward fill, as the spec states it: with a sparse entry
for the day, each tracked account's balance is the previous day's balance plus
the day's delta (0 if absent); with no sparse entry, the previous day's
per-account map is reused unchanged. -/
def dayStep (accounts : List String) (input : List (String × List (String × Int)))
    (prev : List (String × Int)) (key : String) : List (String × Int) :=
  match alookup input key with
  | none => prev
  | some delta =>
    accounts.map fun a => (a, (alookup prev a).getD 0 + (alookup delta a).getD 0)

/-- `n` days of forward fill from date `d` and previous data `prev`, recursing
structurally on the day count. -/
def rollSpec (accounts : List String) (input : List (String × List (String × Int))) :
    Nat → Nat → List (String × Int) → List (String × List (String × Int))
  | 0, _, _ => []
  | n + 1, d, prev =>
    (dateKey d, dayStep accounts input prev (dateKey d))
      :: rollSpec accounts input n (d + 1) (dayStep accounts input prev (dateKey d))

/-- The balances after `i` forward-fill steps from date `d` and data `prev`. -/
def iterStep (accounts : List String) (input : List (String × List (String × Int)))
    (d : Nat) (prev : List (String × Int)) : Nat → List (String × Int)
  | 0 => prev
  | i + 1 => dayStep accounts input (iterStep accounts input d prev i) (dateKey (d + i))

/-- The per-account balances recorded for the `i`-th day of a dense map. -/
def dayBal (dense : List (String × List (String × Int))) (i : Nat) :
    List (String × Int) :=
  ((dense[i]?).getD ("", [])).2

/-- The balances the spec compares the `i`-th day against: the previous day's
entry, or the all-zero seed for the very first day (every account starts at 0
on the day before `firstDate`). -/
def prevDay (accounts : List String) (dense : List (String × List (String × Int)))
    (i : Nat) : List (String × Int) :=
  if i = 0 then seedMap accounts else dayBal dense (i - 1)

/-- The spec's net worth of a bucket: the sum of the dense balances of every
account whose path starts with the asset prefix or the liability prefix, and 0
for buckets absent from the dense map. -/
def netWorthSpec (dailyAccountBalanceMap : List (String × List (String × Int)))
    (bucket : String) (settings : ISettings) : Int :=
  match alookup dailyAccountBalanceMap bucket with
  | none => 0
  | some balanceData =>
    ((balanceData.filter fun p =>
        jsStartsWith p.1 settings.assetAccountsPrefix
          || jsStartsWith p.1 settings.liabilityAccountsPrefix).map Prod.snd).sum

/-- The spec's summed balance of a list of accounts at a bucket, with missing
map entries read as 0. -/
def sumBalances (dailyAccountBalanceMap : List (String × List (String × Int)))
    (bucket : String) (accounts : List String) : Int :=
  (accounts.map fun a =>
    match alookup dailyAccountBalanceMap bucket with
    | none => 0
    | some balances => (alookup balances a).getD 0).sum

/-- The depth-first pre-order enumeration of a forest's nodes: for each node,
its colon-joined path, its `exists` flag, and its child count, the node before
its children, children in insertion order. -/
def nodesPreList : Option String → List TreeNode → List (String × Bool × Nat)
  | _, [] => []
  | path, .mk e label children :: rest =>
    (joinPath path label, e, children.length)
      :: (nodesPreList (some (joinPath path label)) children ++ nodesPreList path rest)
termination_by _ l => sizeOf l
decreasing_by all_goals (simp_wf; try omega)

/-! ### Association-list lemmas -/

theorem alookup_map_self {β : Type} (f : String → β) (l : List String) (x : String) :
    alookup (l.map fun a => (a, f a)) x = if x ∈ l then some (f x) else none := by
  induction l with
  | nil => simp [alookup]
  | cons a rest ih =>
    simp only [List.map_cons, alookup, List.mem_cons]
    by_cases h : a = x
    · subst h
      simp
    · simp only [if_neg h, ih]
      have : ¬x = a := fun hx => h hx.symm
      simp [this]

theorem alookup_map_snd {α β γ : Type} [DecidableEq α] (g : β → γ)
    (l : List (α × β)) (k : α) :
    alookup (l.map fun p => (p.1, g p.2)) k = (alookup l k).map g := by
  induction l with
  | nil => rfl
  | cons p rest ih =>
    simp only [List.map_cons, alookup]
    split
    · rfl
    · exact ih

theorem alookup_setEntry {α β : Type} [DecidableEq α] (m : List (α × β)) (k : α)
    (v : β) (k' : α) :
    alookup (setEntry m k v) k' = if k = k' then some v else alookup m k' := by
  induction m with
  | nil => rfl
  | cons p rest ih =>
    obtain ⟨pk, pv⟩ := p
    by_cases h : pk = k
    · subst h
      simp only [setEntry, if_pos rfl]
      by_cases h' : pk = k' <;> simp [alookup, h']
    · simp only [setEntry, if_neg h, alookup, ih]
      by_cases h' : pk = k'
      · subst h'
        have hne : ¬k = pk := fun hk => h hk.symm
        simp [hne]
      · simp [h']

theorem alookup_pushEntry {α β : Type} [DecidableEq α] (m : List (α × List β))
    (k : α) (x : β) (k' : α) :
    alookup (pushEntry m k x) k'
      = if k = k' then some ((alookup m k).getD [] ++ [x]) else alookup m k' := by
  induction m with
  | nil => rfl
  | cons p rest ih =>
    obtain ⟨pk, pv⟩ := p
    by_cases h : pk = k
    · subst h
      simp only [pushEntry, if_pos rfl]
      by_cases h' : pk = k' <;> simp [alookup, h']
    · simp only [pushEntry, if_neg h, alookup, ih]
      by_cases h' : pk = k'
      · subst h'
        have hne : ¬k = pk := fun hk => h hk.symm
        simp [alookup, hne, h]
      · simp [alookup, h, h']

theorem alookup_mem {α β : Type} [DecidableEq α] (m : List (α × β)) (k : α) (v : β)
    (h : alookup m k = some v) : (k, v) ∈ m := by
  induction m with
  | nil => simp [alookup] at h
  | cons p rest ih =>
    obtain ⟨pk, pv⟩ := p
    by_cases hk : pk = k
    · subst hk
      have hv : pv = v := by simpa [alookup] using h
      subst hv
      exact List.mem_cons_self _ _
    · simp only [alookup, if_neg hk] at h
      exact List.mem_cons_of_mem _ (ih h)

theorem alookup_eq_none {α β : Type} [DecidableEq α] (m : List (α × β)) (x : α)
    (h : x ∉ m.map Prod.fst) : alookup m x = none := by
  induction m with
  | nil => rfl
  | cons p rest ih =>
    simp only [List.map_cons, List.mem_cons] at h
    push_neg at h
    simp only [alookup, if_neg (fun hx : p.1 = x => h.1 hx.symm)]
    exact ih h.2

theorem foldl_add_eq_sum (l : List Int) : ∀ a : Int, l.foldl (· + ·) a = a + l.sum := by
  induction l with
  | nil => intro a; simp
  | cons x rest ih =>
    intro a
    simp only [List.foldl_cons, ih, List.sum_cons]
    omega

/-! ### C4: bucket name generation -/

theorem makeBucketNames_eq_range (interval : Interval) :
    ∀ (n startDate endDate : Nat), endDate + 1 - startDate = n →
      makeBucketNames interval startDate endDate
        = (List.range n).map fun j => dateKey (startDate + j) := by
  intro n
  induction n with
  | zero =>
    intro s e h
    rw [makeBucketNames, dif_neg (by omega)]
    simp
  | succ n ih =>
    intro s e h
    rw [makeBucketNames, dif_pos (by omega : s ≤ e)]
    rw [ih (s + 1) e (by omega)]
    rw [List.range_succ_eq_map]
    simp only [List.map_cons, List.map_map]
    refine congrArg₂ _ (congrArg _ (by omega)) ?_
    refine List.map_congr_left fun j _ => ?_
    simp only [Function.comp_apply]
    exact congrArg _ (by omega)

/-- C4: for every interval and dates, `makeBucketNames` returns the key
`{year}.{zero-padded day-of-year}` of every day from start to end inclusive,
in order (the empty sequence when start > end, as then the range is empty);
in particular days 150–153 of 2023 give `["2023.150", ..., "2023.153"]` and a
reversed range gives `[]`. -/
theorem makeBucketNames_spec :
    (∀ (interval : Interval) (startDate endDate : Nat),
        makeBucketNames interval startDate endDate
          = (List.range (endDate + 1 - startDate)).map fun j => dateKey (startDate + j))
    ∧ makeBucketNames .day (2023 * 365 + 149) (2023 * 365 + 152)
        = ["2023.150", "2023.151", "2023.152", "2023.153"]
    ∧ makeBucketNames .day (2023 * 365 + 152) (2023 * 365 + 149) = [] := by
  refine ⟨fun interval s e => makeBucketNames_eq_range interval _ s e rfl, ?_, ?_⟩
  · simp [makeBucketNames]
    decide
  · simp [makeBucketNames]

/-! ### C6: child account lookup -/

theorem jsStartsWith_iff_append (s p : String) :
    jsStartsWith s p = true ↔ ∃ rest : String, s = p ++ rest := by
  unfold jsStartsWith
  rw [ List.isPrefixOf_iff_prefix]
  constructor
  · rintro ⟨t, ht⟩
    refine ⟨String.mk t, String.ext ?_⟩
    rw [String.data_append]
    exact ht.symm
  · rintro ⟨rest, rfl⟩
    exact ⟨rest.data, (String.data_append p rest).symm⟩

/-- C6: `findChildAccounts` returns exactly the candidates whose path is the
target followed by `":"` and anything (exact segment boundary); in particular
children of `"Assets:Bank"` among `["Assets:Bank", "Assets:Bank:Checking",
"Assets:Banking"]` are exactly `["Assets:Bank:Checking"]`. -/
theorem findChildAccounts_spec (account : String) (accounts : List String) :
    (∀ candidate, candidate ∈ findChildAccounts account accounts ↔
        candidate ∈ accounts ∧ ∃ rest : String, candidate = (account ++ ":") ++ rest)
    ∧ findChildAccounts "Assets:Bank" ["Assets:Bank", "Assets:Bank:Checking", "Assets:Banking"]
        = ["Assets:Bank:Checking"] := by
  constructor
  · intro candidate
    unfold findChildAccounts
    rw [List.mem_filter, jsStartsWith_iff_append]
  · decide

/-! ### C7: net worth series -/

theorem foldl_filter_sum (p : String × Int → Bool) :
    ∀ (l : List (String × Int)) (a : Int),
      l.foldl (fun accum curr => if p curr then accum + curr.2 else accum) a
        = a + ((l.filter p).map Prod.snd).sum := by
  intro l
  induction l with
  | nil => intro a; simp
  | cons c rest ih =>
    intro a
    by_cases h : p c
    · simp only [List.foldl_cons, if_pos h, List.filter_cons, h, ite_true, List.map_cons,
        List.sum_cons, ih]
      omega
    · simp only [List.foldl_cons, if_neg h, List.filter_cons, h, ite_false, ih]
      simp [h]

theorem calcNetWorth_eq_filter_sum (balanceData : List (String × Int))
    (settings : ISettings) :
    calcNetWorth balanceData settings
      = ((balanceData.filter fun p =>
            jsStartsWith p.1 settings.assetAccountsPrefix
              || jsStartsWith p.1 settings.liabilityAccountsPrefix).map Prod.snd).sum := by
  unfold calcNetWorth
  rw [foldl_filter_sum]
  simp

/-- C7: `makeNetWorthData` yields one point per bucket (in order) whose value
is the sum of the balances of accounts starting with the asset or liability
prefix, 0 for buckets absent from the dense map; in particular `{Assets:Bank:
100, Liabilities:Credit: -40, Income:Salary: 500}` gives net worth 60. -/
theorem makeNetWorthData_spec
    (dailyAccountBalanceMap : List (String × List (String × Int)))
    (bucketNames : List String) (settings : ISettings) :
    makeNetWorthData dailyAccountBalanceMap bucketNames settings
      = (bucketNames.map fun bucket =>
          { x := bucket, y := netWorthSpec dailyAccountBalanceMap bucket settings })
    ∧ makeNetWorthData
        [("2023.150", [("Assets:Bank", 100), ("Liabilities:Credit", -40),
          ("Income:Salary", 500)])]
        ["2023.150"] ⟨"Assets", "Liabilities"⟩ = [⟨"2023.150", 60⟩] := by
  constructor
  · unfold makeNetWorthData netWorthSpec
    refine List.map_congr_left fun bucket _ => ?_
    cases alookup dailyAccountBalanceMap bucket with
    | none => rfl
    | some balanceData =>
      simp only [calcNetWorth_eq_filter_sum]
  · decide

/-! ### C3: empty bucket list -/

theorem foldl_pushEntry_none (txs : List Tx) :
    ∀ acc : List Tx,
      txs.foldl (fun buckets tx => pushEntry buckets (chooseBucket [] (txKey tx)) tx)
          [(none, acc)]
        = [(none, acc ++ txs)] := by
  induction txs with
  | nil => intro acc; simp
  | cons t rest ih =>
    intro acc
    have hstep : pushEntry [((none : Option String), acc)] (chooseBucket [] (txKey t)) t
        = [(none, acc ++ [t])] := by
      simp [chooseBucket, pushEntry]
    simp only [List.foldl_cons, hstep, ih]
    simp

/-- C3 counterexample: with an empty bucket list but a non-empty transaction
list, `bucketTransactions` does not return an empty map: the transaction is
filed under the undefined bucket key. -/
theorem bucketTransactions_empty_counterexample :
    bucketTransactions [] [{ date := 0, expenselines := [] }]
      = [(none, [{ date := 0, expenselines := [] }])]
    ∧ bucketTransactions [] [{ date := 0, expenselines := [] }] ≠ [] := by
  constructor
  · decide
  · decide

/-- C3 (amended): `bucketTransactions` with an empty bucket list returns the
empty map only when the transaction list is empty; otherwise every transaction
is pushed under the JavaScript-`undefined` bucket key (`bucketNames[0]` of an
empty list), giving a single-entry map. -/
theorem bucketTransactions_empty_buckets (txs : List Tx) :
    bucketTransactions [] txs = if txs.isEmpty then [] else [(none, txs)] := by
  cases txs with
  | nil => rfl
  | cons t rest =>
    unfold bucketTransactions
    have hstep : pushEntry ([] : List (Option String × List Tx))
        (chooseBucket [] (txKey t)) t = [(none, [t])] := by
      simp [chooseBucket, pushEntry]
    simp only [List.map_nil, List.foldl_cons, hstep]
    rw [foldl_pushEntry_none]
    simp

/-! ### C5: sparse balance-change map -/

theorem foldl_addLine_lookup (lines : List Line) :
    ∀ (acc : List (String × List Int)) (a : String),
      (alookup (lines.foldl addLine acc) a).getD []
        = (alookup acc a).getD [] ++ lineAmounts lines a := by
  induction lines with
  | nil => intro acc a; simp [lineAmounts]
  | cons l rest ih =>
    intro acc a
    cases l with
    | comment =>
      simp only [List.foldl_cons, addLine, ih, lineAmounts, List.filterMap_cons]
    | accountLine a' amt =>
      simp only [List.foldl_cons, addLine, ih, alookup_pushEntry, lineAmounts,
        List.filterMap_cons]
      by_cases h : a' = a
      · subst h
        simp [List.append_assoc]
      · simp [h, fun hx : a = a' => h hx.symm]

theorem changesFor_addTx (m : List (String × List (String × List Int))) (tx : Tx)
    (k a : String) :
    changesFor (addTx m tx) k a
      = changesFor m k a
          ++ (if dateKey tx.date = k then lineAmounts tx.expenselines a else []) := by
  unfold addTx changesFor
  rw [alookup_setEntry]
  by_cases h : dateKey tx.date = k
  · subst h
    rw [if_pos rfl, if_pos rfl]
    simp only [Option.getD_some]
    exact foldl_addLine_lookup tx.expenselines _ a
  · rw [if_neg h, if_neg h]
    simp

theorem changesFor_foldl_addTx (txs : List Tx) :
    ∀ (m : List (String × List (String × List Int))) (k a : String),
      changesFor (txs.foldl addTx m) k a = changesFor m k a ++ amountsAt txs k a := by
  induction txs with
  | nil => intro m k a; simp [amountsAt]
  | cons t rest ih =>
    intro m k a
    simp only [List.foldl_cons, ih, changesFor_addTx, amountsAt, List.map_cons,
      List.flatten_cons, List.append_assoc]

/-- C5: `makeDailyAccountBalanceChangeMap` maps each (day key, account) pair to
the sum of the amounts of all account lines for that account dated that day,
across lines and transactions, with comment lines skipped; in particular two
same-day transactions touching `Assets:Bank` by +10 and −3 (one behind a
comment line) yield the single sparse entry +7. -/
theorem makeDailyAccountBalanceChangeMap_sums (transactions : List Tx)
    (k a : String) :
    (match alookup (makeDailyAccountBalanceChangeMap transactions) k with
      | none => (0 : Int)
      | some inner => (alookup inner a).getD 0)
      = (amountsAt transactions k a).sum
    ∧ makeDailyAccountBalanceChangeMap
        [{ date := 2023 * 365 + 149, expenselines := [.accountLine "Assets:Bank" 10] },
         { date := 2023 * 365 + 149,
           expenselines := [.comment, .accountLine "Assets:Bank" (-3)] }]
        = [("2023.150", [("Assets:Bank", 7)])] := by
  constructor
  · have hcf := changesFor_foldl_addTx transactions [] k a
    rw [show changesFor ([] : List (String × List (String × List Int))) k a = []
          from rfl,
        List.nil_append] at hcf
    have hmain : alookup (makeDailyAccountBalanceChangeMap transactions) k
        = (alookup (transactions.foldl addTx []) k).map
            (fun inner => inner.map fun q => (q.1, q.2.foldl (· + ·) 0)) :=
      alookup_map_snd _ _ _
    rw [hmain]
    unfold changesFor at hcf
    cases houter : alookup (transactions.foldl addTx []) k with
    | none =>
      rw [houter] at hcf
      simp only [Option.getD_none] at hcf
      have hAmt : amountsAt transactions k a = [] := by
        simpa [alookup] using hcf.symm
      simp [hAmt]
    | some inner =>
      rw [houter] at hcf
      simp only [Option.getD_some] at hcf
      show (alookup (inner.map fun q => (q.1, q.2.foldl (· + ·) 0)) a).getD 0
          = (amountsAt transactions k a).sum
      rw [alookup_map_snd]
      cases hinner : alookup inner a with
      | none =>
        rw [hinner] at hcf
        simp only [Option.getD_none] at hcf
        simp [← hcf]
      | some l =>
        rw [hinner] at hcf
        simp only [Option.getD_some] at hcf
        subst hcf
        simp [foldl_add_eq_sum]
  · decide

/-! ### C8: delta series -/

theorem foldl_delta_sum (cur prev : Option (List (String × Int))) :
    ∀ (l : List String) (a : Int),
      (l.foldl (fun acc currentAccount =>
          ((cur.bind fun mm => alookup mm currentAccount).getD 0)
            - ((prev.bind fun mm => alookup mm currentAccount).getD 0) + acc) a)
        = a + (l.map fun x => ((cur.bind fun mm => alookup mm x).getD 0)).sum
            - (l.map fun x => ((prev.bind fun mm => alookup mm x).getD 0)).sum := by
  intro l
  induction l with
  | nil => intro a; simp
  | cons x rest ih =>
    intro a
    simp only [List.foldl_cons, ih, List.map_cons, List.sum_cons]
    omega

theorem sumBalances_eq_bind (m : List (String × List (String × Int)))
    (bucket : String) (l : List String) :
    (l.map fun x => ((alookup m bucket).bind fun mm => alookup mm x).getD 0).sum
      = sumBalances m bucket l := by
  unfold sumBalances
  refine congrArg _ (List.map_congr_left fun x _ => ?_)
  cases alookup m bucket <;> rfl

theorem makeDeltaData_getElem (dailyAccountBalanceMap : List (String × List (String × Int)))
    (bucketBefore : String) (bucketNames : List String) (account : String)
    (allAccounts : List String) (i : Nat) (bucket : String)
    (hb : bucketNames[i]? = some bucket) :
    (makeDeltaData dailyAccountBalanceMap bucketBefore bucketNames account allAccounts)[i]?
      = some ⟨bucket,
          sumBalances dailyAccountBalanceMap bucket
              (findChildAccounts account allAccounts ++ [account])
            - sumBalances dailyAccountBalanceMap
              (if i = 0 then bucketBefore else bucketNames.getD (i - 1) "")
              (findChildAccounts account allAccounts ++ [account])⟩ := by
  unfold makeDeltaData
  simp only [List.getElem?_mapIdx, hb, Option.map_some']
  refine congrArg some ?_
  rw [foldl_delta_sum, sumBalances_eq_bind, sumBalances_eq_bind]
  simp

/-- C8: `makeDeltaData` returns one point per bucket in order, the value at
bucket `i` being the summed balance of the account and its descendants at
bucket `i` minus the same sum at bucket `i - 1` (at `bucketBefore` for
`i = 0`), missing entries counting as 0; in particular balances `[50, 70, 65]`
with a bucket-before balance of 40 give deltas `[10, 20, -5]`. -/
theorem makeDeltaData_spec (dailyAccountBalanceMap : List (String × List (String × Int)))
    (bucketBefore : String) (bucketNames : List String) (account : String)
    (allAccounts : List String) :
    (makeDeltaData dailyAccountBalanceMap bucketBefore bucketNames account
        allAccounts).length = bucketNames.length
    ∧ (∀ bucket, bucketNames[0]? = some bucket →
        (makeDeltaData dailyAccountBalanceMap bucketBefore bucketNames account
            allAccounts)[0]?
          = some ⟨bucket,
              sumBalances dailyAccountBalanceMap bucket
                  (findChildAccounts account allAccounts ++ [account])
                - sumBalances dailyAccountBalanceMap bucketBefore
                  (findChildAccounts account allAccounts ++ [account])⟩)
    ∧ (∀ (j : Nat) (bucket prevBucket : String), bucketNames[j + 1]? = some bucket →
        bucketNames[j]? = some prevBucket →
        (makeDeltaData dailyAccountBalanceMap bucketBefore bucketNames account
            allAccounts)[j + 1]?
          = some ⟨bucket,
              sumBalances dailyAccountBalanceMap bucket
                  (findChildAccounts account allAccounts ++ [account])
                - sumBalances dailyAccountBalanceMap prevBucket
                  (findChildAccounts account allAccounts ++ [account])⟩)
    ∧ makeDeltaData [("b0", [("A", 40)]), ("b1", [("A", 50)]), ("b2", [("A", 70)]),
        ("b3", [("A", 65)])] "b0" ["b1", "b2", "b3"] "A" ["A"]
        = [⟨"b1", 10⟩, ⟨"b2", 20⟩, ⟨"b3", -5⟩] := by
  refine ⟨?_, ?_, ?_, by decide⟩
  · unfold makeDeltaData
    simp
  · intro bucket hb
    simpa using makeDeltaData_getElem dailyAccountBalanceMap bucketBefore bucketNames
      account allAccounts 0 bucket hb
  · intro j bucket prevBucket hb hprev
    have h := makeDeltaData_getElem dailyAccountBalanceMap bucketBefore bucketNames
      account allAccounts (j + 1) bucket hb
    rw [if_neg (by omega : ¬j + 1 = 0)] at h
    rw [h]
    have : bucketNames.getD (j + 1 - 1) "" = prevBucket := by
      simp only [Nat.add_sub_cancel, List.getD_eq_getElem?_getD, hprev, Option.getD_some]
    rw [this]

/-! ### C2: transaction bucketing -/

theorem lexLt_trans_of_not :
    ∀ (k b b' : List Char), lexLt k b = true → lexLt b' b = false → lexLt k b' = true := by
  intro k
  induction k with
  | nil =>
    intro b b' h1 h2
    cases b with
    | nil => simp [lexLt] at h1
    | cons d ds =>
      cases b' with
      | nil => simp [lexLt] at h2
      | cons e es => simp [lexLt]
  | cons a ks ih =>
    intro b b' h1 h2
    cases b with
    | nil => simp [lexLt] at h1
    | cons d ds =>
      cases b' with
      | nil => simp [lexLt] at h2
      | cons e es =>
        simp only [lexLt] at h1 h2 ⊢
        by_cases hed : e < d
        · rw [if_pos hed] at h2
          simp at h2
        · rw [if_neg hed] at h2
          by_cases hde : d < e
          · rw [if_pos hde] at h2
            by_cases had : a < d
            · rw [if_pos (lt_trans had hde)]
            · rw [if_neg had] at h1
              by_cases hda : d < a
              · rw [if_pos hda] at h1
                simp at h1
              · have had' : a = d := le_antisymm (not_lt.mp hda) (not_lt.mp had)
                subst had'
                rw [if_pos hde]
          · rw [if_neg hde] at h2
            have hed' : e = d := le_antisymm (not_lt.mp hde) (not_lt.mp hed)
            subst hed'
            by_cases hae : a < e
            · rw [if_pos hae] at h1 ⊢
            · rw [if_neg hae] at h1 ⊢
              by_cases hea : e < a
              · rw [if_pos hea] at h1
                simp at h1
              · rw [if_neg hea] at h1 ⊢
                exact ih ds es h1 h2

theorem chooseBucketGo_eq (txTravellerDate : String) :
    ∀ (bs : List String) (t : String),
      List.Pairwise (fun a b => jsLe a b = true) bs →
      chooseBucketGo txTravellerDate t bs
        = (bs.filter fun b => jsLe b txTravellerDate).getLastD t := by
  intro bs
  induction bs with
  | nil => intro t _; rfl
  | cons b rest ih =>
    intro t hp
    rw [List.pairwise_cons] at hp
    simp only [chooseBucketGo]
    by_cases h : jsGt b txTravellerDate
    · rw [if_pos h]
      have hlt : jsLt txTravellerDate b = true := h
      have hb : jsLe b txTravellerDate = false := by simp [jsLe, hlt]
      rw [List.filter_cons_of_neg (by simp [hb])]
      have hrest : (rest.filter fun b' => jsLe b' txTravellerDate) = [] := by
        rw [List.filter_eq_nil_iff]
        intro b' hb'
        have hle : jsLe b b' = true := hp.1 b' hb'
        have hlt' : lexLt b'.data b.data = false := by
          simpa [jsLe, jsLt] using hle
        have hres := lexLt_trans_of_not txTravellerDate.data b.data b'.data hlt hlt'
        simp [jsLe, jsLt, hres]
      rw [hrest]
      rfl
    · rw [if_neg h]
      have hgt : jsGt b txTravellerDate = false := by
        simpa using h
      have hb : jsLe b txTravellerDate = true := by
        simp only [jsLe]
        have hlt : jsLt txTravellerDate b = false := hgt
        rw [hlt]
        rfl
      rw [List.filter_cons_of_pos (by simp [hb]), List.getLastD_cons, ih b hp.2]

theorem chooseBucket_eq_spec (bucketNames : List String)
    (hsorted : List.Pairwise (fun a b => jsLe a b = true) bucketNames) (k : String) :
    chooseBucket bucketNames k = assignedBucketSpec bucketNames k := by
  cases bucketNames with
  | nil => rfl
  | cons b rest =>
    simp only [chooseBucket, assignedBucketSpec]
    rw [chooseBucketGo_eq k (b :: rest) b hsorted]

theorem bucketTransactions_foldl_lookup (bucketNames : List String) :
    ∀ (txs : List Tx) (m : List (Option String × List Tx)) (key : Option String),
      alookup (txs.foldl (fun buckets tx =>
          pushEntry buckets (chooseBucket bucketNames (txKey tx)) tx) m) key
        = match txs.filter
              (fun tx => decide (chooseBucket bucketNames (txKey tx) = key)) with
          | [] => alookup m key
          | l => some ((alookup m key).getD [] ++ l) := by
  intro txs
  induction txs with
  | nil => intro m key; rfl
  | cons t rest ih =>
    intro m key
    simp only [List.foldl_cons, List.filter_cons]
    by_cases h : chooseBucket bucketNames (txKey t) = key
    · rw [ih (pushEntry m (chooseBucket bucketNames (txKey t)) t) key]
      rw [h, alookup_pushEntry, if_pos rfl]
      cases hf : rest.filter
          (fun tx => decide (chooseBucket bucketNames (txKey tx) = key)) with
      | nil => simp [hf]
      | cons x xs => simp [hf, List.append_assoc]
    · rw [ih (pushEntry m (chooseBucket bucketNames (txKey t)) t) key]
      rw [alookup_pushEntry, if_neg h]
      simp [h]

theorem alookup_map_const_nil (bucketNames : List String) (key : Option String)
    (l : List Tx)
    (h : alookup (bucketNames.map fun name => (some name, ([] : List Tx))) key
          = some l) :
    l = [] := by
  have hmem := alookup_mem _ _ _ h
  rcases List.mem_map.mp hmem with ⟨name, _, heq⟩
  exact (congrArg Prod.snd heq).symm

/-- C2: with a non-empty, sorted bucket list, `bucketTransactions` assigns each
transaction to the last bucket key lexicographically `≤` its own date key,
defaulting to the first bucket key when none qualifies: the selected bucket
equals the spec rule, every transaction lands in its selected bucket's list,
and every transaction found in a bucket's list was selected for it. -/
theorem bucketTransactions_assignment (bucketNames : List String) (txs : List Tx)
    (hne : bucketNames ≠ [])
    (hsorted : List.Pairwise (fun a b => jsLe a b = true) bucketNames) :
    (∀ k, chooseBucket bucketNames k = assignedBucketSpec bucketNames k)
    ∧ (∀ tx ∈ txs, ∃ l, alookup (bucketTransactions bucketNames txs)
          (chooseBucket bucketNames (txKey tx)) = some l ∧ tx ∈ l)
    ∧ (∀ (key : Option String) (l : List Tx),
        alookup (bucketTransactions bucketNames txs) key = some l →
        ∀ tx ∈ l, tx ∈ txs ∧ chooseBucket bucketNames (txKey tx) = key) := by
  refine ⟨fun k => chooseBucket_eq_spec bucketNames hsorted k, ?_, ?_⟩
  · intro tx htx
    have hlook := bucketTransactions_foldl_lookup bucketNames txs
      (bucketNames.map fun name => (some name, []))
      (chooseBucket bucketNames (txKey tx))
    have hmem : tx ∈ txs.filter (fun t =>
        decide (chooseBucket bucketNames (txKey t)
          = chooseBucket bucketNames (txKey tx))) := by
      rw [List.mem_filter]
      exact ⟨htx, by simp⟩
    cases hf : txs.filter (fun t =>
        decide (chooseBucket bucketNames (txKey t)
          = chooseBucket bucketNames (txKey tx))) with
    | nil =>
      rw [hf] at hmem
      simp at hmem
    | cons x xs =>
      rw [hf] at hlook hmem
      have h2 : alookup (bucketTransactions bucketNames txs)
          (chooseBucket bucketNames (txKey tx))
          = some ((alookup (bucketNames.map fun name => (some name, []))
              (chooseBucket bucketNames (txKey tx))).getD [] ++ x :: xs) := hlook
      exact ⟨_, h2, List.mem_append_right _ hmem⟩
  · intro key l hl tx htxl
    have hlook := bucketTransactions_foldl_lookup bucketNames txs
      (bucketNames.map fun name => (some name, [])) key
    cases hf : txs.filter
        (fun t => decide (chooseBucket bucketNames (txKey t) = key)) with
    | nil =>
      rw [hf] at hlook
      have hstep : alookup (txs.foldl (fun buckets tx =>
          pushEntry buckets (chooseBucket bucketNames (txKey tx)) tx)
          (bucketNames.map fun name => (some name, []))) key
          = alookup (bucketNames.map fun name => (some name, ([] : List Tx))) key :=
        hlook
      have hinit : alookup (bucketNames.map fun name => (some name, ([] : List Tx)))
          key = some l := hstep.symm.trans hl
      have hl0 : l = [] := alookup_map_const_nil bucketNames key l hinit
      rw [hl0] at htxl
      simp at htxl
    | cons x xs =>
      rw [hf] at hlook
      have h2 : alookup (bucketTransactions bucketNames txs) key
          = some ((alookup (bucketNames.map fun name => (some name, []))
              key).getD [] ++ x :: xs) := hlook
      rw [hl] at h2
      have hacc : (alookup (bucketNames.map fun name => (some name, ([] : List Tx)))
          key).getD [] = [] := by
        cases halo : alookup (bucketNames.map fun name => (some name, ([] : List Tx)))
            key with
        | none => rfl
        | some v =>
          have := alookup_map_const_nil bucketNames key v halo
          simp [this]
      rw [hacc] at h2
      have hlx : l = x :: xs := by
        simpa using h2
      rw [hlx, ← hf] at htxl
      have := List.mem_filter.mp htxl
      exact ⟨this.1, of_decide_eq_true this.2⟩

/-- C2 witness: with buckets `["2023.100", "2023.110", "2023.120"]` the
assignment rule holds; a day-115 transaction key selects `"2023.110"` and a
day-95 key selects the first bucket `"2023.100"`. -/
theorem bucketTransactions_assignment_witness :
    chooseBucket ["2023.100", "2023.110", "2023.120"] "2023.115"
        = assignedBucketSpec ["2023.100", "2023.110", "2023.120"] "2023.115"
    ∧ chooseBucket ["2023.100", "2023.110", "2023.120"] "2023.115" = some "2023.110"
    ∧ chooseBucket ["2023.100", "2023.110", "2023.120"] "2023.095" = some "2023.100"
    ∧ txKey { date := 2023 * 365 + 114, expenselines := [] } = "2023.115" := by
  refine ⟨(bucketTransactions_assignment ["2023.100", "2023.110", "2023.120"] []
      (by decide) (by decide)).1 "2023.115", by decide, by decide, by decide⟩

/-! ### C1/C10: dense daily balance map -/

theorem rollDays_eq_rollSpec (accounts : List String)
    (input : List (String × List (String × Int))) (lastDate : Nat) :
    ∀ (n currentDate : Nat) (prev : List (String × Int)),
      lastDate + 1 - currentDate = n →
      rollDays accounts input prev currentDate lastDate
        = rollSpec accounts input n currentDate prev := by
  intro n
  induction n with
  | zero =>
    intro c prev h
    rw [rollDays, dif_neg (by omega)]
    rfl
  | succ n ih =>
    intro c prev h
    rw [rollDays, dif_pos (by omega : c ≤ lastDate)]
    simp only [rollSpec, dayStep]
    cases halo : alookup input (dateKey c) with
    | some innerInputMap =>
      simp only [halo]
      rw [ih (c + 1) _ (by omega)]
    | none =>
      simp only [halo]
      rw [ih (c + 1) prev (by omega)]

theorem rollSpec_length (accounts : List String)
    (input : List (String × List (String × Int))) :
    ∀ (n d : Nat) (prev : List (String × Int)),
      (rollSpec accounts input n d prev).length = n := by
  intro n
  induction n with
  | zero => intro d prev; rfl
  | succ n ih =>
    intro d prev
    simp only [rollSpec, List.length_cons, ih]

theorem iterStep_shift (accounts : List String)
    (input : List (String × List (String × Int))) (d : Nat)
    (prev : List (String × Int)) :
    ∀ i : Nat,
      iterStep accounts input (d + 1) (dayStep accounts input prev (dateKey d)) i
        = iterStep accounts input d prev (i + 1) := by
  intro i
  induction i with
  | zero => rfl
  | succ i ih =>
    simp only [iterStep, ih]
    have : d + 1 + i = d + (i + 1) := by omega
    rw [this]

theorem rollSpec_getElem (accounts : List String)
    (input : List (String × List (String × Int))) :
    ∀ (n d : Nat) (prev : List (String × Int)) (i : Nat), i < n →
      (rollSpec accounts input n d prev)[i]?
        = some (dateKey (d + i), iterStep accounts input d prev (i + 1)) := by
  intro n
  induction n with
  | zero => intro d prev i hi; omega
  | succ n ih =>
    intro d prev i hi
    cases i with
    | zero =>
      simp [rollSpec, iterStep]
    | succ i =>
      simp only [rollSpec, List.getElem?_cons_succ]
      rw [ih (d + 1) _ i (by omega), iterStep_shift]
      have : d + 1 + i = d + (i + 1) := by omega
      rw [this]

theorem dayStep_keys (accounts : List String)
    (input : List (String × List (String × Int))) (prev : List (String × Int))
    (key : String) (hprev : prev.map Prod.fst = accounts) :
    (dayStep accounts input prev key).map Prod.fst = accounts := by
  unfold dayStep
  cases alookup input key with
  | none => exact hprev
  | some delta =>
    rw [List.map_map]
    exact (List.map_congr_left fun a _ => rfl).trans (List.map_id _)

theorem rollSpec_keys (accounts : List String)
    (input : List (String × List (String × Int))) :
    ∀ (n d : Nat) (prev : List (String × Int)), prev.map Prod.fst = accounts →
      ∀ p ∈ rollSpec accounts input n d prev, p.2.map Prod.fst = accounts := by
  intro n
  induction n with
  | zero => intro d prev _ p hp; simp [rollSpec] at hp
  | succ n ih =>
    intro d prev hprev p hp
    simp only [rollSpec, List.mem_cons] at hp
    rcases hp with hp | hp
    · subst hp
      exact dayStep_keys accounts input prev _ hprev
    · exact ih (d + 1) _ (dayStep_keys accounts input prev _ hprev) p hp

theorem seedMap_keys (accounts : List String) :
    (seedMap accounts).map Prod.fst = accounts := by
  unfold seedMap
  rw [List.map_map]
  exact (List.map_congr_left fun a _ => rfl).trans (List.map_id _)

/-- C1: for `firstDate ≤ lastDate`, `makeDailyBalanceMap` has exactly one
entry per calendar day in `[firstDate, lastDate]` in order; a day with no
sparse entry records the previous day's per-account map unchanged, and a day
with a sparse entry records, for every tracked account, the previous day's
value plus the day's delta (0 if absent), the day before `firstDate` being the
all-zero seed. -/
theorem makeDailyBalanceMap_forward_fill (accounts : List String)
    (input : List (String × List (String × Int))) (firstDate lastDate : Nat)
    (h : firstDate ≤ lastDate) (dense : List (String × List (String × Int)))
    (hdense : dense = makeDailyBalanceMap accounts input firstDate lastDate) :
    dense.length = lastDate + 1 - firstDate
    ∧ (∀ i, i < dense.length →
        (dense[i]?).map Prod.fst = some (dateKey (firstDate + i)))
    ∧ (∀ i, i < dense.length →
        match alookup input (dateKey (firstDate + i)) with
        | none => dayBal dense i = prevDay accounts dense i
        | some delta => ∀ a ∈ accounts,
            alookup (dayBal dense i) a
              = some ((alookup (prevDay accounts dense i) a).getD 0
                  + (alookup delta a).getD 0))
    ∧ (∀ a ∈ accounts, alookup (seedMap accounts) a = some 0) := by
  have hroll : dense = rollSpec accounts input (lastDate + 1 - firstDate) firstDate
      (seedMap accounts) := by
    rw [hdense]
    exact rollDays_eq_rollSpec accounts input lastDate _ firstDate _ rfl
  have hlen : dense.length = lastDate + 1 - firstDate := by
    rw [hroll, rollSpec_length]
  refine ⟨hlen, ?_, ?_, ?_⟩
  · intro i hi
    rw [hlen] at hi
    rw [hroll, rollSpec_getElem accounts input _ firstDate _ i hi]
    rfl
  · intro i hi
    rw [hlen] at hi
    have hbal : dayBal dense i
        = dayStep accounts input
            (iterStep accounts input firstDate (seedMap accounts) i)
            (dateKey (firstDate + i)) := by
      unfold dayBal
      rw [hroll, rollSpec_getElem accounts input _ firstDate _ i hi]
      rfl
    have hprev : prevDay accounts dense i
        = iterStep accounts input firstDate (seedMap accounts) i := by
      unfold prevDay
      cases i with
      | zero => simp [iterStep]
      | succ j =>
        rw [if_neg (by omega : ¬j + 1 = 0)]
        unfold dayBal
        rw [hroll]
        simp only [Nat.add_sub_cancel]
        rw [rollSpec_getElem accounts input _ firstDate _ j (by omega)]
        simp [iterStep]
    cases halo : alookup input (dateKey (firstDate + i)) with
    | none =>
      rw [hbal, hprev]
      unfold dayStep
      rw [halo]
    | some delta =>
      intro a ha
      rw [hbal, hprev]
      unfold dayStep
      rw [halo]
      rw [alookup_map_self]
      rw [if_pos ha]
  · intro a ha
    unfold seedMap
    rw [alookup_map_self, if_pos ha]

/-- C1 witness: on accounts `["A", "B"]` with one sparse entry on day 151 of
2023 and the range day 150 – day 153, the dense map has one entry per day. -/
theorem makeDailyBalanceMap_forward_fill_witness :
    (makeDailyBalanceMap ["A", "B"] [("2023.151", [("A", 5), ("C", 9)])]
      (2023 * 365 + 149) (2023 * 365 + 152)).length = 4 := by
  have h := makeDailyBalanceMap_forward_fill ["A", "B"]
    [("2023.151", [("A", 5), ("C", 9)])] (2023 * 365 + 149) (2023 * 365 + 152)
    (by omega) _ rfl
  have hlen := h.1
  omega

/-- C10: every per-day inner map of `makeDailyBalanceMap` has key list exactly
the provided accounts list; accounts outside it (such as sparse deltas for
untracked accounts) never appear. -/
theorem makeDailyBalanceMap_inner_keys (accounts : List String)
    (input : List (String × List (String × Int))) (firstDate lastDate : Nat)
    (h : firstDate ≤ lastDate) :
    ∀ p ∈ makeDailyBalanceMap accounts input firstDate lastDate,
      p.2.map Prod.fst = accounts ∧ ∀ a, a ∉ accounts → alookup p.2 a = none := by
  intro p hp
  have hroll : makeDailyBalanceMap accounts input firstDate lastDate
      = rollSpec accounts input (lastDate + 1 - firstDate) firstDate
          (seedMap accounts) :=
    rollDays_eq_rollSpec accounts input lastDate _ firstDate _ rfl
  rw [hroll] at hp
  have hkeys := rollSpec_keys accounts input _ firstDate (seedMap accounts)
    (seedMap_keys accounts) p hp
  refine ⟨hkeys, fun a ha => ?_⟩
  refine alookup_eq_none _ _ ?_
  rw [hkeys]
  exact ha

/-- C10 witness: in the concrete dense map over accounts `["A", "B"]`, day
150's inner map keys are exactly `["A", "B"]`, and the untracked account `"C"`
(which has a sparse delta) does not appear. -/
theorem makeDailyBalanceMap_inner_keys_witness :
    ([("A", (0 : Int)), ("B", 0)].map Prod.fst = ["A", "B"])
    ∧ alookup [("A", (0 : Int)), ("B", 0)] "C" = none := by
  have h := makeDailyBalanceMap_inner_keys ["A", "B"]
    [("2023.151", [("A", 5), ("C", 9)])] (2023 * 365 + 149) (2023 * 365 + 152)
    (by omega) ("2023.150", [("A", 0), ("B", 0)])
    (by simp [makeDailyBalanceMap, rollDays, seedMap]; decide)
  exact ⟨h.1, h.2 "C" (by decide)⟩

/-! ### C9: account tree compression -/

theorem renderList_eq_nodesPre :
    ∀ (path : Option String) (l : List TreeNode),
      renderList path l
        = (nodesPreList path l).filterMap
            (fun entry => if entry.2.2 != 1 && entry.2.1 then some entry.1 else none) := by
  intro path l
  induction path, l using renderList.induct with
  | case1 path => simp [renderList, nodesPreList]
  | case2 path e label children rest ih1 ih2 =>
    simp only [renderList, nodesPreList, List.filterMap_cons, List.filterMap_append,
      ih1, ih2]
    by_cases h : (children.length != 1 && e) = true
    · simp [h]
    · simp [h]

/-- C9: `removeDuplicateAccounts` builds the account trie and renders it in
depth-first pre-order (children in first-seen insertion order), emitting
exactly the colon-joined paths of nodes whose child count differs from 1 and
at which some input path terminates (`exists = true`); on `["Liabilities",
"Liabilities:Credit", "Liabilities:Credit:Chase", "Liabilities:Credit:Citi"]`
it yields `["Liabilities:Credit", "Liabilities:Credit:Chase",
"Liabilities:Credit:Citi"]`. -/
theorem removeDuplicateAccounts_spec :
    (∀ (path : Option String) (l : List TreeNode),
        renderList path l
          = (nodesPreList path l).filterMap
              (fun entry => if entry.2.2 != 1 && entry.2.1 then some entry.1 else none))
    ∧ removeDuplicateAccounts ["Liabilities", "Liabilities:Credit",
        "Liabilities:Credit:Chase", "Liabilities:Credit:Citi"]
        = ["Liabilities:Credit", "Liabilities:Credit:Chase",
           "Liabilities:Credit:Citi"] := by
  refine ⟨renderList_eq_nodesPre, ?_⟩
  simp [removeDuplicateAccounts, insertPath, renderList, jsSplitColon, splitColon,
    joinPath]

end Ledger
